import Mathlib

/-!
# Face-Lock-System: verification of the matching/decision core

Shallow embedding of `src/server/auth.py` (the canonical, most elaborated
variant per the spec). The external collaborators — image decoding
(`decode_base64_image`), the `face_recognition` library calls inside
`get_face_encoding`, and the floating-point landmark-geometry validator
(`validate_face_landmarks`, lines 144-205) — are modelled as parameters
(oracles), exactly as the spec declares them out of scope. The decision
logic itself (thresholding, scanning, enrollment/verification control
flow, deletion) is translated line by line from the source.

Conventions:
* Embeddings are an abstract type `ε`; the similarity function
  `sim : ε → ε → α` stands for `cosine_similarity([q], [s])[0][0]`
  with scores in a linear ordered field `α` (instantiated at `ℚ` for
  executable witnesses and at `ℝ` for the cosine-specific facts).
* The MongoDB `users` collection is a `List (UserRecord ε)`; an operation
  that can write returns the collection it leaves behind alongside its
  response dict, so store effects are explicit.
* Python result dicts become structures; the `"type"` key is the
  `kind` field.
-/

/-- A persisted user document: `{"name": ..., "face_encodings": [...]}`
(the `registration_date` field is never read by any operation and is
omitted). -/
structure UserRecord (ε : Type) where
  name : String
  face_encodings : List ε
deriving DecidableEq

/-- The dict returned by `register_user` (keys `success`, `message`,
`type` — here `kind` — and optionally `existing_user`). -/
structure RegisterResult where
  success : Bool
  message : String
  kind : String
  existing_user : Option String
deriving DecidableEq

/-- The dict returned by `verify_user` (keys `success`, `message`, and on
success also `username` and `confidence`). -/
structure VerifyResult (α : Type) where
  success : Bool
  message : String
  username : Option String
  confidence : Option α
deriving DecidableEq

/-- The dict returned by `delete_user` (keys `success`, `message`). -/
structure DeleteResult where
  success : Bool
  message : String
deriving DecidableEq

/-- The literal `0.92` compared against the best score in
`find_existing_face` (auth.py line 244, "Use a much higher threshold for
more security"). -/
def dedupThreshold (α : Type) [DivisionRing α] : α := 92 / 100

/-- The literal `0.92` compared against the best score in `verify_user`
(auth.py line 406, "Use a much higher threshold for login
verification"). -/
def verificationThreshold (α : Type) [DivisionRing α] : α := 92 / 100

section Scan

variable {ε : Type} {α : Type} [LinearOrderedField α]

/-- The list `user_scores` accumulated for one user document: for every
`stored_encoding` in `user["face_encodings"]`, for every `encoding` in the
query's `face_encodings`, the score `cosine_similarity([encoding],
[stored_encoding])[0][0]` (auth.py lines 391-397, identically lines
223-234). -/
def userScores (sim : ε → ε → α) (qs : List ε) (u : UserRecord ε) : List α :=
  u.face_encodings.flatMap (fun s => qs.map (fun q => sim q s))

/-- One iteration of the `for user in all_users` loop shared by
`find_existing_face` and `verify_user`: if `user_scores` is nonempty and
its maximum beats the running best score, the best score and best
username move to this user. `max(list)` in Python is the left fold of
binary `max` over the list from its head. -/
def scanStep (sim : ε → ε → α) (qs : List ε)
    (acc : α × Option String) (u : UserRecord ε) : α × Option String :=
  match userScores sim qs u with
  | [] => acc
  | s :: ss =>
    let m := ss.foldl max s
    if acc.1 < m then (m, some u.name) else acc

/-- The whole scan loop: fold `scanStep` over the user documents starting
from `best_match_score = 0.0`, `best_match_username = None`. -/
def scanUsers (sim : ε → ε → α) (qs : List ε)
    (store : List (UserRecord ε)) : α × Option String :=
  store.foldl (scanStep sim qs) ((0 : α), (none : Option String))

/-- `find_existing_face` (auth.py lines 207-252): empty collection scans
nothing and returns `None`; otherwise the best-scoring user's name is
returned when the best score exceeds the `0.92` dedup threshold. -/
def find_existing_face (sim : ε → ε → α) (store : List (UserRecord ε))
    (face_encodings : List ε) : Option String :=
  if store.isEmpty then none
  else
    let acc := scanUsers sim face_encodings store
    if dedupThreshold α < acc.1 then acc.2 else none

/-- The body of `verify_user` from `all_users = list(users.find({}))`
onward (auth.py lines 383-414): empty store fails with
"No registered users found"; otherwise the scan runs and the request is
accepted exactly when `best_match_score > 0.92`. -/
def verifyWithEncodings (sim : ε → ε → α) (store : List (UserRecord ε))
    (qs : List ε) : VerifyResult α :=
  if store.isEmpty then ⟨false, "No registered users found", none, none⟩
  else
    let acc := scanUsers sim qs store
    if verificationThreshold α < acc.1 then
      ⟨true, "Login successful", acc.2, some acc.1⟩
    else ⟨false, "Face not recognized", none, none⟩

variable {Img : Type}

/-- `verify_user` (auth.py lines 370-418), with the image decoder and the
face-encoding extractor as oracle parameters. The function issues only
reads against the `users` collection, so the collection component of the
result is the input store on every path. -/
def verify_user (decode : String → Option Img)
    (getEnc : Img → Option (List ε)) (sim : ε → ε → α)
    (store : List (UserRecord ε)) (image_data : String) :
    VerifyResult α × List (UserRecord ε) :=
  match decode image_data with
  | none => (⟨false, "Invalid image data", none, none⟩, store)
  | some img =>
    match getEnc img with
    | none => (⟨false, "No face detected in the image", none, none⟩, store)
    | some qs => (verifyWithEncodings sim store qs, store)

/-- Python truthiness of `not name or not name.strip()`: the name is
rejected iff it is empty or consists only of whitespace. -/
def nameIsBlank (name : String) : Bool :=
  name.toList.all (fun ch => ch.isWhitespace)

/-- `register_user` (auth.py lines 254-368): name validation, image-data
presence validation, duplicate-identity lookup (`users.find_one({"name":
name})`), image decoding, face-encoding extraction, duplicate-face scan,
and finally `users.insert_one` which appends the new document. Every
rejection path leaves the collection untouched. -/
def register_user (decode : String → Option Img)
    (getEnc : Img → Option (List ε)) (sim : ε → ε → α)
    (store : List (UserRecord ε)) (name : String) (image_data : String) :
    RegisterResult × List (UserRecord ε) :=
  if nameIsBlank name then
    (⟨false, "Name is required", "validation_error", none⟩, store)
  else if image_data == "" then
    (⟨false, "Image data is required", "validation_error", none⟩, store)
  else if (store.find? (fun u => u.name == name)).isSome then
    (⟨false, "User already exists", "user_exists", none⟩, store)
  else
    match decode image_data with
    | none =>
      (⟨false, "Failed to process image data. Please try again.",
        "image_error", none⟩, store)
    | some img =>
      match getEnc img with
      | none =>
        (⟨false, "No face detected in the image. Please ensure your face is clearly visible and well-lit.",
          "face_error", none⟩, store)
      | some encs =>
        match find_existing_face sim store encs with
        | some existing =>
          (⟨false, "This face is already registered as " ++ existing,
            "face_exists", some existing⟩, store)
        | none =>
          (⟨true, "User registered successfully", "success", none⟩,
            store ++ [⟨name, encs⟩])

/-- `delete_user` (auth.py lines 420-428): `users.delete_one({"name":
name})` removes the first matching document; the branch taken depends on
`result.deleted_count > 0`. Note the source returns `"success": False`
on BOTH branches. -/
def delete_user (store : List (UserRecord ε)) (name : String) :
    DeleteResult × List (UserRecord ε) :=
  if store.any (fun u => u.name == name) then
    (⟨false, "User deleted successfully"⟩,
      store.eraseP (fun u => u.name == name))
  else
    (⟨false, "User not found"⟩, store)

end Scan

section Augment

variable {α : Type} [DivisionRing α] {Loc Lmk : Type}

/-- `encoding * factor` on a numpy vector: elementwise scalar
multiplication. -/
def smulList (c : α) (v : List α) : List α := v.map (fun x => c * x)

/-- The augmentation loop of `get_face_encoding` (auth.py lines 129-137):
each raw encoding is emitted followed by its `0.95`- and `1.05`-scaled
copies. -/
def augmentEncodings (raw : List (List α)) : List (List α) :=
  raw.flatMap (fun e => [e, smulList (95 / 100) e, smulList (105 / 100) e])

/-- `get_face_encoding` (auth.py lines 84-142), parametrized over the
per-image outputs of the external `face_recognition` library
(`face_locations`, `face_encodings`, `face_landmarks`) and over the
floating-point landmark-geometry validator `validate_face_landmarks`
(abstracted as a boolean predicate on the opaque landmark type `Lmk`).
Empty locations, empty encodings, empty landmarks, or a failed validation
of the FIRST face's landmarks all yield `None`; otherwise the augmented
encodings of ALL detected faces are returned — there is no
multiple-faces rejection anywhere in this function. -/
def get_face_encoding (face_locations : List Loc)
    (face_encodings : List (List α)) (face_landmarks : List Lmk)
    (validate : Lmk → Bool) : Option (List (List α)) :=
  if face_locations.isEmpty then none
  else if face_encodings.isEmpty then none
  else
    match face_landmarks with
    | [] => none
    | m0 :: _ =>
      if validate m0 then some (augmentEncodings face_encodings) else none

end Augment

/-- Dot product of two vectors of real numbers (`numpy`'s inner product
underlying `sklearn.metrics.pairwise.cosine_similarity`). -/
def dotList (v w : List ℝ) : ℝ := (List.zipWith (· * ·) v w).sum

/-- `cosine_similarity([v], [w])[0][0]`: the dot product divided by the
product of the Euclidean norms. -/
noncomputable def cosineSim (v w : List ℝ) : ℝ :=
  dotList v w / (Real.sqrt (dotList v v) * Real.sqrt (dotList w w))

/-! ## Helper lemmas: Python `max(list)` as a left fold of binary `max` -/

section FoldMax

variable {α : Type} [LinearOrder α]

theorem foldl_max_mono {a b : α} (l : List α) (h : a ≤ b) :
    l.foldl max a ≤ l.foldl max b := by
  induction l generalizing a b with
  | nil => exact h
  | cons x l ih => exact ih (max_le_max h le_rfl)

theorem le_foldl_max (a : α) (l : List α) : a ≤ l.foldl max a := by
  induction l generalizing a with
  | nil => exact le_rfl
  | cons x l ih => exact le_trans (le_max_left a x) (ih (max a x))

theorem foldl_max_le {a b : α} {l : List α} (h0 : a ≤ b)
    (h : ∀ x ∈ l, x ≤ b) : l.foldl max a ≤ b := by
  induction l generalizing a with
  | nil => exact h0
  | cons x l ih =>
    exact ih (max_le h0 (h x (List.mem_cons_self x l)))
      (fun y hy => h y (List.mem_cons_of_mem x hy))

theorem mem_le_foldl_max {x : α} {l : List α} (a : α) (h : x ∈ l) :
    x ≤ l.foldl max a := by
  induction l generalizing a with
  | nil => exact absurd h (List.not_mem_nil x)
  | cons y l ih =>
    rw [List.foldl_cons]
    rcases List.mem_cons.mp h with hx | hx
    · subst hx; exact le_trans (le_max_right a x) (le_foldl_max (max a x) l)
    · exact ih (max a y) hx

theorem foldl_max_eq_or_mem (a : α) (l : List α) :
    l.foldl max a = a ∨ l.foldl max a ∈ l := by
  induction l generalizing a with
  | nil => exact Or.inl rfl
  | cons x l ih =>
    rcases ih (max a x) with h | h
    · rcases max_choice a x with hm | hm
      · exact Or.inl (by rw [List.foldl_cons, h, hm])
      · exact Or.inr (by rw [List.foldl_cons, h, hm]; exact List.mem_cons_self x l)
    · exact Or.inr (List.mem_cons_of_mem x h)

theorem mem_cons_le_foldl_max {x u : α} {us : List α} (hx : x ∈ u :: us) :
    x ≤ us.foldl max u := by
  rcases List.mem_cons.mp hx with h | h
  · exact h ▸ le_foldl_max u us
  · exact mem_le_foldl_max u h

/-- Two nonempty lists with the same members have the same Python `max`. -/
theorem foldl_max_congr_of_mem_iff (s t : α) (ss ts : List α)
    (h : ∀ x, x ∈ s :: ss ↔ x ∈ t :: ts) : ss.foldl max s = ts.foldl max t := by
  apply le_antisymm
  · refine foldl_max_le (mem_cons_le_foldl_max ((h s).mp (List.mem_cons_self s ss))) ?_
    exact fun x hx => mem_cons_le_foldl_max ((h x).mp (List.mem_cons_of_mem s hx))
  · refine foldl_max_le (mem_cons_le_foldl_max ((h t).mpr (List.mem_cons_self t ts))) ?_
    exact fun x hx => mem_cons_le_foldl_max ((h x).mpr (List.mem_cons_of_mem t hx))

end FoldMax

/-! ## Helper lemmas: the shared scan loop -/

section ScanLemmas

variable {ε : Type} {α : Type} [LinearOrderedField α]

theorem scanStep_of_nil {sim : ε → ε → α} {qs : List ε} {u : UserRecord ε}
    (acc : α × Option String) (h : userScores sim qs u = []) :
    scanStep sim qs acc u = acc := by
  unfold scanStep; rw [h]

theorem scanStep_of_cons {sim : ε → ε → α} {qs : List ε} {u : UserRecord ε}
    {s : α} {ss : List α} (acc : α × Option String)
    (h : userScores sim qs u = s :: ss) :
    scanStep sim qs acc u =
      if acc.1 < ss.foldl max s then (ss.foldl max s, some u.name) else acc := by
  unfold scanStep; rw [h]

theorem scanStep_fst_le (sim : ε → ε → α) (qs : List ε)
    (acc : α × Option String) (u : UserRecord ε) :
    acc.1 ≤ (scanStep sim qs acc u).1 := by
  cases h : userScores sim qs u with
  | nil => rw [scanStep_of_nil acc h]
  | cons s ss =>
    rw [scanStep_of_cons acc h]
    split
    · exact le_of_lt (by assumption)
    · exact le_rfl

theorem scanStep_le_of_mem {sim : ε → ε → α} {qs : List ε} {u : UserRecord ε}
    {sc : α} (acc : α × Option String) (hsc : sc ∈ userScores sim qs u) :
    sc ≤ (scanStep sim qs acc u).1 := by
  cases h : userScores sim qs u with
  | nil => rw [h] at hsc; exact absurd hsc (List.not_mem_nil sc)
  | cons s ss =>
    rw [h] at hsc
    rw [scanStep_of_cons acc h]
    have hm : sc ≤ ss.foldl max s := mem_cons_le_foldl_max hsc
    split
    · exact hm
    · exact le_trans hm (le_of_not_lt (by assumption))

theorem foldl_scanStep_fst_le (sim : ε → ε → α) (qs : List ε)
    (us : List (UserRecord ε)) (acc : α × Option String) :
    acc.1 ≤ (us.foldl (scanStep sim qs) acc).1 := by
  induction us generalizing acc with
  | nil => exact le_rfl
  | cons u us ih =>
    exact le_trans (scanStep_fst_le sim qs acc u) (ih (scanStep sim qs acc u))

/-- Every score of every scanned user is bounded by the final best score:
the scan is a full linear pass with no early exit. -/
theorem foldl_scanStep_bound (sim : ε → ε → α) (qs : List ε)
    (us : List (UserRecord ε)) (acc : α × Option String) :
    ∀ u ∈ us, ∀ sc ∈ userScores sim qs u,
      sc ≤ (us.foldl (scanStep sim qs) acc).1 := by
  induction us generalizing acc with
  | nil => intro u hu; exact absurd hu (List.not_mem_nil u)
  | cons v us ih =>
    intro u hu sc hsc
    rcases List.mem_cons.mp hu with hu | hu
    · subst hu
      rw [List.foldl_cons]
      exact le_trans (scanStep_le_of_mem acc hsc)
        (foldl_scanStep_fst_le sim qs us (scanStep sim qs acc u))
    · rw [List.foldl_cons]
      exact ih (scanStep sim qs acc v) u hu sc hsc

/-- After the fold, either the accumulator came through untouched or the
best score is one of the scanned users' scores and the best username is
that user's name. -/
theorem foldl_scanStep_attain (sim : ε → ε → α) (qs : List ε)
    (us : List (UserRecord ε)) (acc : α × Option String) :
    us.foldl (scanStep sim qs) acc = acc ∨
      ∃ u ∈ us, (us.foldl (scanStep sim qs) acc).2 = some u.name ∧
        (us.foldl (scanStep sim qs) acc).1 ∈ userScores sim qs u := by
  induction us generalizing acc with
  | nil => exact Or.inl rfl
  | cons v us ih =>
    rw [List.foldl_cons]
    rcases ih (scanStep sim qs acc v) with h | h
    · rw [h]
      cases hus : userScores sim qs v with
      | nil => exact Or.inl (scanStep_of_nil acc hus)
      | cons s ss =>
        rw [scanStep_of_cons acc hus]
        split
        · refine Or.inr ⟨v, List.mem_cons_self v us, rfl, ?_⟩
          rw [hus]
          rcases foldl_max_eq_or_mem s ss with hm | hm
          · rw [hm]; exact List.mem_cons_self s ss
          · exact List.mem_cons_of_mem s hm
        · exact Or.inl rfl
    · rcases h with ⟨u, hu, h2, h1⟩
      exact Or.inr ⟨u, List.mem_cons_of_mem v hu, h2, h1⟩

end ScanLemmas

/-! ## Helper lemmas: cosine similarity under positive scaling -/

theorem dotList_nil_right (v : List ℝ) : dotList v [] = 0 := by
  cases v <;> rfl

theorem dotList_cons (a b : ℝ) (v w : List ℝ) :
    dotList (a :: v) (b :: w) = a * b + dotList v w := by
  simp [dotList]

theorem dot_smul_left (c : ℝ) (v w : List ℝ) :
    dotList (smulList c v) w = c * dotList v w := by
  induction v generalizing w with
  | nil => simp [smulList, dotList]
  | cons a v ih =>
    cases w with
    | nil => simp [dotList_nil_right]
    | cons b w =>
      have h1 : smulList c (a :: v) = (c * a) :: smulList c v := rfl
      rw [h1, dotList_cons, dotList_cons, ih w]
      ring

theorem dot_smul_right (c : ℝ) (v w : List ℝ) :
    dotList v (smulList c w) = c * dotList v w := by
  induction v generalizing w with
  | nil => simp [dotList]
  | cons a v ih =>
    cases w with
    | nil => simp [smulList, dotList_nil_right]
    | cons b w =>
      have h1 : smulList c (b :: w) = (c * b) :: smulList c w := rfl
      rw [h1, dotList_cons, dotList_cons, ih w]
      ring

/-- Cosine similarity is invariant under scaling its first argument by a
positive factor. -/
theorem cosineSim_smul {c : ℝ} (hc : 0 < c) (v w : List ℝ) :
    cosineSim (smulList c v) w = cosineSim v w := by
  unfold cosineSim
  have h1 : dotList (smulList c v) w = c * dotList v w := dot_smul_left c v w
  have h2 : dotList (smulList c v) (smulList c v) = c ^ 2 * dotList v v := by
    rw [dot_smul_left, dot_smul_right]; ring
  rw [h1, h2, Real.sqrt_mul (sq_nonneg c), Real.sqrt_sq hc.le, mul_assoc c,
    mul_div_mul_left _ _ hc.ne']

/-- Any of the three variants the augmentation emits for a raw encoding
`e` scores identically to `e` against any stored encoding. -/
theorem cosineSim_variant {q e s : List ℝ}
    (hq : q ∈ [e, smulList (95 / 100) e, smulList (105 / 100) e]) :
    cosineSim q s = cosineSim e s := by
  rcases List.mem_cons.mp hq with h | hq
  · rw [h]
  rcases List.mem_cons.mp hq with h | hq
  · rw [h]; exact cosineSim_smul (by norm_num) e s
  rcases List.mem_cons.mp hq with h | hq
  · rw [h]; exact cosineSim_smul (by norm_num) e s
  · exact absurd hq (List.not_mem_nil q)

theorem mem_userScores_augment (raw : List (List ℝ))
    (u : UserRecord (List ℝ)) (x : ℝ) :
    x ∈ userScores cosineSim (augmentEncodings raw) u ↔
      x ∈ userScores cosineSim raw u := by
  simp only [userScores, augmentEncodings, List.mem_flatMap, List.mem_map]
  constructor
  · rintro ⟨s, hs, q, hq, rfl⟩
    rcases hq with ⟨e, he, hqe⟩
    exact ⟨s, hs, e, he, (cosineSim_variant hqe).symm⟩
  · rintro ⟨s, hs, e, he, rfl⟩
    exact ⟨s, hs, e, ⟨e, he, List.mem_cons_self _ _⟩, rfl⟩

theorem scanStep_augment (raw : List (List ℝ)) (acc : ℝ × Option String)
    (u : UserRecord (List ℝ)) :
    scanStep cosineSim (augmentEncodings raw) acc u =
      scanStep cosineSim raw acc u := by
  cases haug : userScores cosineSim (augmentEncodings raw) u with
  | nil =>
    cases hraw : userScores cosineSim raw u with
    | nil => rw [scanStep_of_nil acc haug, scanStep_of_nil acc hraw]
    | cons t ts =>
      exfalso
      have hmem : t ∈ userScores cosineSim (augmentEncodings raw) u :=
        (mem_userScores_augment raw u t).mpr (hraw ▸ List.mem_cons_self t ts)
      rw [haug] at hmem
      exact absurd hmem (List.not_mem_nil t)
  | cons s ss =>
    cases hraw : userScores cosineSim raw u with
    | nil =>
      exfalso
      have hmem : s ∈ userScores cosineSim raw u :=
        (mem_userScores_augment raw u s).mp (haug ▸ List.mem_cons_self s ss)
      rw [hraw] at hmem
      exact absurd hmem (List.not_mem_nil s)
    | cons t ts =>
      rw [scanStep_of_cons acc haug, scanStep_of_cons acc hraw]
      have hmax : ss.foldl max s = ts.foldl max t := by
        apply foldl_max_congr_of_mem_iff
        intro x
        rw [← haug, ← hraw]
        exact mem_userScores_augment raw u x
      rw [hmax]

theorem scanUsers_augment (raw : List (List ℝ))
    (store : List (UserRecord (List ℝ))) :
    scanUsers cosineSim (augmentEncodings raw) store =
      scanUsers cosineSim raw store := by
  unfold scanUsers
  exact List.foldl_ext _ _ _ (fun acc u _ => scanStep_augment raw acc u)

theorem verifyWithEncodings_augment (store : List (UserRecord (List ℝ)))
    (raw : List (List ℝ)) :
    verifyWithEncodings cosineSim store (augmentEncodings raw) =
      verifyWithEncodings cosineSim store raw := by
  unfold verifyWithEncodings
  rw [scanUsers_augment]

/-! ## Claim C5: dedup threshold vs verification threshold -/

/-- Counterexample for C5: the deduplication threshold is NOT strictly
higher than the verification threshold — both literals are `0.92`
(auth.py lines 244 and 406). -/
theorem dedup_threshold_not_stricter :
    ¬ verificationThreshold ℚ < dedupThreshold ℚ := by
  unfold verificationThreshold dedupThreshold
  exact lt_irrefl _

/-- Claim C5, amended: the deduplication threshold used by
`find_existing_face` and the verification threshold used by
`verify_user` are one and the same bound, `0.92`. -/
theorem dedup_threshold_equals_verification :
    dedupThreshold ℚ = verificationThreshold ℚ ∧
      dedupThreshold ℚ = 92 / 100 := ⟨rfl, rfl⟩

/-! ## Claim C1: no incremental-update path -/

/-- Claim C1, amended: `verify_user` never appends anything to any
user's stored embeddings — the function only reads the `users`
collection, so the collection after any verification request (accepted
or not) is exactly the collection before it; a persisted user's
embeddings sequence never grows through verification. -/
theorem verify_user_never_writes {ε Img : Type} {α : Type}
    [LinearOrderedField α] (decode : String → Option Img)
    (getEnc : Img → Option (List ε)) (sim : ε → ε → α)
    (store : List (UserRecord ε)) (image_data : String) :
    (verify_user decode getEnc sim store image_data).2 = store := by
  cases hd : decode image_data with
  | none => simp [verify_user, hd]
  | some img =>
    cases hg : getEnc img with
    | none => simp [verify_user, hd, hg]
    | some qs => simp [verify_user, hd, hg]

/-- Counterexample for C1: a concrete verification request whose best
score `0.93` clears the `0.92` verification threshold (and sits just
above it, inside any nonempty update-worthy band) is accepted, yet the
store is returned unchanged: the query embedding `1` is not appended to
`alice`'s stored sequence, which still reads `[10]`. -/
theorem verify_accept_appends_nothing :
    verify_user (fun _ => some ()) (fun _ => some [1])
        (fun _ _ => (93 : ℚ) / 100) [⟨"alice", [10]⟩] "img" =
      (⟨true, "Login successful", some "alice", some (93 / 100)⟩,
        [⟨"alice", [10]⟩]) ∧
    verificationThreshold ℚ < 93 / 100 := by
  constructor
  · norm_num [verify_user, verifyWithEncodings, scanUsers, scanStep,
      userScores, verificationThreshold]
  · norm_num [verificationThreshold]

/-! ## Claim C7: deletion result -/

/-- Claim C7 (code bug): deleting an existing user takes the
`deleted_count > 0` branch whose message reads "User deleted
successfully", yet the returned `success` flag is `False` — the source
contradicts its own message. Deleting a missing user is a plain
failure message, not an exception, as the claim says. -/
theorem delete_user_flag_contradicts_message :
    delete_user [(⟨"alice", [10]⟩ : UserRecord ℕ)] "alice" =
      (⟨false, "User deleted successfully"⟩, []) ∧
    delete_user ([] : List (UserRecord ℕ)) "alice" =
      (⟨false, "User not found"⟩, []) := by
  constructor
  · simp [delete_user, List.eraseP]
  · simp [delete_user]

/-! ## Claim C8: verification against an empty store -/

/-- Claim C8: whenever the query image decodes and yields face
encodings, `verify_user` on an empty store returns the structured
failure with message "No registered users found" — the emptiness check
precedes the scan, the store is untouched, and the model is a total
function (no exception escapes). -/
theorem verify_empty_store_fails {ε Img : Type} {α : Type}
    [LinearOrderedField α] (decode : String → Option Img)
    (getEnc : Img → Option (List ε)) (sim : ε → ε → α)
    (image_data : String) (img : Img) (qs : List ε)
    (hdec : decode image_data = some img) (henc : getEnc img = some qs) :
    verify_user decode getEnc sim ([] : List (UserRecord ε)) image_data =
      (⟨false, "No registered users found", none, none⟩, []) := by
  simp only [verify_user, hdec, henc]
  rfl

/-- Witness for C8 at a concrete decoder, extractor and query. -/
theorem verify_empty_store_fails_witness :
    verify_user (fun _ => some ()) (fun _ => some [5]) (fun _ _ => (0 : ℚ))
        ([] : List (UserRecord ℕ)) "img" =
      (⟨false, "No registered users found", none, none⟩, []) :=
  verify_empty_store_fails (fun _ => some ()) (fun _ => some [5])
    (fun _ _ => (0 : ℚ)) "img" () [5] rfl rfl

/-! ## Claim C3: the threshold boundary -/

/-- Counterexample for C3: a request whose best score is exactly the
verification threshold `0.92` is REJECTED — the source compares with
strict `>` (`best_match_score > 0.92`), so the boundary is exclusive,
not the inclusive `>=` the claim states. -/
theorem boundary_score_rejected :
    verifyWithEncodings (fun _ _ => (92 : ℚ) / 100)
        [(⟨"alice", [10]⟩ : UserRecord ℕ)] [1] =
      ⟨false, "Face not recognized", none, none⟩ ∧
    (scanUsers (fun _ _ => (92 : ℚ) / 100) [1]
        [(⟨"alice", [10]⟩ : UserRecord ℕ)]).1 = verificationThreshold ℚ := by
  constructor
  · norm_num [verifyWithEncodings, scanUsers, scanStep, userScores,
      verificationThreshold]
  · norm_num [scanUsers, scanStep, userScores, verificationThreshold]

/-- Claim C3, amended: `verify_user`'s acceptance comparison is strict —
the request succeeds exactly when the best scanned score is strictly
greater than the verification threshold, so a best score exactly equal
to the threshold is rejected. -/
theorem verification_acceptance_is_strict {ε : Type} {α : Type}
    [LinearOrderedField α] (sim : ε → ε → α)
    (store : List (UserRecord ε)) (qs : List ε) :
    (verifyWithEncodings sim store qs).success = true ↔
      verificationThreshold α < (scanUsers sim qs store).1 := by
  cases store with
  | nil =>
    have h0 : (scanUsers sim qs ([] : List (UserRecord ε))).1 = 0 := rfl
    rw [h0]
    simp only [verifyWithEncodings, List.isEmpty_nil, if_true]
    constructor
    · intro h; cases h
    · intro h
      exact absurd h (not_lt.mpr (by norm_num [verificationThreshold]))
  | cons u us =>
    simp only [verifyWithEncodings, List.isEmpty_cons, Bool.false_eq_true,
      if_false]
    split
    · case isTrue h => simpa using h
    · case isFalse h => simpa using h

/-! ## Claim C6: full scan, global maximum -/

/-- Claim C6: whenever verification accepts, the reported username
belongs to a user in the store who owns a stored embedding achieving the
reported confidence against some query embedding, and that confidence is
an upper bound for the similarity of EVERY (user, stored embedding,
query embedding) triple — i.e. the scan is a full linear pass that
reports the global maximum and its owner. -/
theorem verify_reports_global_max {ε : Type} {α : Type}
    [LinearOrderedField α] (sim : ε → ε → α)
    (store : List (UserRecord ε)) (qs : List ε) (name : String) (conf : α)
    (h : verifyWithEncodings sim store qs =
      ⟨true, "Login successful", some name, some conf⟩) :
    (∃ u ∈ store, u.name = name ∧
        ∃ s ∈ u.face_encodings, ∃ q ∈ qs, sim q s = conf) ∧
      ∀ u ∈ store, ∀ s ∈ u.face_encodings, ∀ q ∈ qs, sim q s ≤ conf := by
  unfold verifyWithEncodings at h
  split at h
  · simp at h
  · dsimp only at h
    split at h
    · simp only [VerifyResult.mk.injEq] at h
      obtain ⟨-, -, hname, hconf⟩ := h
      have hconf2 : (scanUsers sim qs store).1 = conf := by
        exact Option.some.injEq .. ▸ Option.some_injective α hconf
      constructor
      · rcases foldl_scanStep_attain sim qs store ((0 : α), none) with hfix | hat
        · exfalso
          have h2 : (scanUsers sim qs store).2 = none := by
            unfold scanUsers; rw [hfix]
          rw [h2] at hname
          cases hname
        · obtain ⟨u, hu, hn, hm⟩ := hat
          refine ⟨u, hu, ?_, ?_⟩
          · have : some u.name = some name := by
              unfold scanUsers at hname; rw [← hname, hn]
            exact Option.some_injective String this
          · have hm2 : conf ∈ userScores sim qs u := by
              unfold scanUsers at hconf2; rw [← hconf2]; exact hm
            rcases List.mem_flatMap.mp hm2 with ⟨s, hs, hmap⟩
            rcases List.mem_map.mp hmap with ⟨q, hq, hqs⟩
            exact ⟨s, hs, q, hq, hqs⟩
      · intro u hu s hs q hq
        have hmem : sim q s ∈ userScores sim qs u :=
          List.mem_flatMap.mpr ⟨s, hs, List.mem_map.mpr ⟨q, hq, rfl⟩⟩
        have := foldl_scanStep_bound sim qs store ((0 : α), none) u hu
          (sim q s) hmem
        unfold scanUsers at hconf2
        rw [hconf2] at this
        exact this
    · simp at h

/-- Witness for C6: two registered users, the query scores `0.95`
against `alice`'s stored embedding and `0.5` against `bob`'s; the
accepted identity is `alice` and `0.95` is indeed attained by and bounds
every triple. -/
theorem verify_reports_global_max_witness :
    (verifyWithEncodings (fun q s => if q = 1 ∧ s = 10 then (95 : ℚ) / 100 else 1 / 2)
        [⟨"alice", [10]⟩, ⟨"bob", [20]⟩] [1] =
      ⟨true, "Login successful", some "alice", some (95 / 100)⟩) ∧
    (∃ u ∈ [(⟨"alice", [10]⟩ : UserRecord ℕ), ⟨"bob", [20]⟩], u.name = "alice" ∧
        ∃ s ∈ u.face_encodings, ∃ q ∈ [1],
          (if q = 1 ∧ s = 10 then (95 : ℚ) / 100 else 1 / 2) = 95 / 100) ∧
      ∀ u ∈ [(⟨"alice", [10]⟩ : UserRecord ℕ), ⟨"bob", [20]⟩],
        ∀ s ∈ u.face_encodings, ∀ q ∈ [1],
          (if q = 1 ∧ s = 10 then (95 : ℚ) / 100 else 1 / 2) ≤ 95 / 100 := by
  have hv : verifyWithEncodings
      (fun q s => if q = 1 ∧ s = 10 then (95 : ℚ) / 100 else 1 / 2)
      [⟨"alice", [10]⟩, ⟨"bob", [20]⟩] [1] =
      ⟨true, "Login successful", some "alice", some (95 / 100)⟩ := by
    norm_num [verifyWithEncodings, scanUsers, scanStep, userScores,
      verificationThreshold, max_def]
  exact ⟨hv, verify_reports_global_max
    (fun q s => if q = 1 ∧ s = 10 then (95 : ℚ) / 100 else 1 / 2)
    [⟨"alice", [10]⟩, ⟨"bob", [20]⟩] [1] "alice" (95 / 100) hv⟩

/-! ## Helper lemmas: enrollment -/

theorem get_face_encoding_some {α : Type} [DivisionRing α]
    {Loc Lmk : Type} {locs : List Loc} {rawEncs : List (List α)}
    {lmks : List Lmk} {validate : Lmk → Bool} {encs : List (List α)}
    (h : get_face_encoding locs rawEncs lmks validate = some encs) :
    encs = augmentEncodings rawEncs := by
  unfold get_face_encoding at h
  split at h
  · cases h
  · split at h
    · cases h
    · split at h
      · cases h
      · split at h
        · exact (Option.some_injective _ h).symm
        · cases h

theorem augmentEncodings_length {α : Type} [DivisionRing α]
    (raw : List (List α)) :
    (augmentEncodings raw).length = 3 * raw.length := by
  induction raw with
  | nil => rfl
  | cons e raw ih =>
    unfold augmentEncodings at ih ⊢
    rw [List.flatMap_cons, List.length_append, ih]
    simp only [List.length_cons, List.length_nil]
    omega

/-- A successful enrollment can only come out of the final branch of
`register_user`: the decoder and the extractor both succeeded, and the
new document `{name, encs}` was appended to the collection. -/
theorem register_user_success_appends {ε Img : Type} {α : Type}
    [LinearOrderedField α] (decode : String → Option Img)
    (getEnc : Img → Option (List ε)) (sim : ε → ε → α)
    (store : List (UserRecord ε)) (name image_data : String)
    (h : (register_user decode getEnc sim store name image_data).1.success
      = true) :
    ∃ img, decode image_data = some img ∧ ∃ encs, getEnc img = some encs ∧
      register_user decode getEnc sim store name image_data =
        (⟨true, "User registered successfully", "success", none⟩,
          store ++ [⟨name, encs⟩]) := by
  unfold register_user at h
  split at h
  next => cases h
  next hname =>
    split at h
    next => cases h
    next himg =>
      split at h
      next => cases h
      next hdup =>
        split at h
        next hd => cases h
        next img hd =>
          split at h
          next hg => cases h
          next encs hg =>
            split at h
            next existing hf => cases h
            next hf =>
              refine ⟨img, hd, encs, hg, ?_⟩
              simp only [register_user, if_neg hname, if_neg himg,
                if_neg hdup, hd, hg, hf]

/-! ## Claim C2: multi-face images at enrollment -/

/-- Counterexample for C2: an enrollment request whose image yields TWO
detected faces is not rejected — there is no `MultipleFacesError`
anywhere in the source; registration proceeds through deduplication and
persists a record holding the augmented encodings of BOTH faces
(`[1]` and `[2]`, each with its `0.95`- and `1.05`-scaled copies). -/
theorem multiface_enrollment_succeeds :
    register_user (fun _ => some ())
        (fun _ => get_face_encoding [0, 1] [[1], [2]] [0, 1] (fun _ => true))
        (fun _ _ => (0 : ℚ)) ([] : List (UserRecord (List ℚ))) "bob" "img" =
      (⟨true, "User registered successfully", "success", none⟩,
        [⟨"bob", [[1], [19/20], [21/20], [2], [19/10], [21/10]]⟩]) := by
  have hn : nameIsBlank "bob" = false := by decide
  have hi : ("img" == "") = false := by decide
  norm_num [register_user, hn, hi, get_face_encoding, augmentEncodings,
    smulList, find_existing_face]

/-- Claim C2, amended: multi-face images are NOT rejected: whenever the
library reports at least two face locations (with nonempty encodings
and landmarks, and the first face's landmarks validating),
`get_face_encoding` returns the augmented encodings of all detected
faces, and enrollment proceeds with them. -/
theorem multiface_not_rejected {α : Type} [DivisionRing α] {Loc Lmk : Type}
    (locs : List Loc) (rawEncs : List (List α)) (m0 : Lmk) (rest : List Lmk)
    (validate : Lmk → Bool) (hlocs : 2 ≤ locs.length) (hencs : rawEncs ≠ [])
    (hval : validate m0 = true) :
    get_face_encoding locs rawEncs (m0 :: rest) validate =
      some (augmentEncodings rawEncs) := by
  have h1 : locs.isEmpty = false := by
    cases locs with
    | nil => simp at hlocs
    | cons a l => rfl
  have h2 : rawEncs.isEmpty = false := by
    cases rawEncs with
    | nil => exact absurd rfl hencs
    | cons a l => rfl
  simp [get_face_encoding, h1, h2, hval]

/-- Witness for C2's amended statement at a concrete two-face request. -/
theorem multiface_not_rejected_witness :
    (2 ≤ ([0, 1] : List ℕ).length) ∧
    get_face_encoding [0, 1] [[(1 : ℚ)], [2]] [0, 1] (fun _ => true) =
      some (augmentEncodings [[(1 : ℚ)], [2]]) :=
  ⟨by norm_num,
    multiface_not_rejected [0, 1] [[(1 : ℚ)], [2]] 0 [1] (fun _ => true)
      (by norm_num) (by simp) rfl⟩

/-! ## Claim C4: what a successful enrollment persists -/

/-- Counterexample for C4: a successful single-face enrollment persists
a record whose `face_encodings` holds THREE elements (the raw encoding
plus its two scaled copies), not exactly one. -/
theorem single_face_enrollment_stores_three :
    register_user (fun _ => some ())
        (fun _ => get_face_encoding [0] [[(1 : ℚ)]] [0] (fun _ => true))
        (fun _ _ => (0 : ℚ)) ([] : List (UserRecord (List ℚ))) "bob" "img" =
      (⟨true, "User registered successfully", "success", none⟩,
        [⟨"bob", [[1], [19/20], [21/20]]⟩]) ∧
    (register_user (fun _ => some ())
        (fun _ => get_face_encoding [0] [[(1 : ℚ)]] [0] (fun _ => true))
        (fun _ _ => (0 : ℚ)) ([] : List (UserRecord (List ℚ))) "bob"
        "img").2.map (fun u => u.face_encodings.length) ≠ [1] := by
  have hn : nameIsBlank "bob" = false := by decide
  have hi : ("img" == "") = false := by decide
  have hreg : register_user (fun _ => some ())
      (fun _ => get_face_encoding [0] [[(1 : ℚ)]] [0] (fun _ => true))
      (fun _ _ => (0 : ℚ)) ([] : List (UserRecord (List ℚ))) "bob" "img" =
      (⟨true, "User registered successfully", "success", none⟩,
        [⟨"bob", [[1], [19/20], [21/20]]⟩]) := by
    norm_num [register_user, hn, hi, get_face_encoding, augmentEncodings,
      smulList, find_existing_face]
  refine ⟨hreg, ?_⟩
  rw [hreg]
  simp

/-- Claim C4, amended: every successful enrollment persists one new
record whose `embeddings` sequence holds exactly three elements per raw
extracted face encoding (the encoding itself plus its `0.95`- and
`1.05`-scaled variants) — three elements for a single-face image, never
one. -/
theorem enrollment_persists_three_per_raw {Img Loc Lmk : Type} {α : Type}
    [LinearOrderedField α] (decode : String → Option Img) (locs : List Loc)
    (rawEncs : List (List α)) (lmks : List Lmk) (validate : Lmk → Bool)
    (sim : List α → List α → α) (store : List (UserRecord (List α)))
    (name image_data : String)
    (h : (register_user decode
        (fun _ => get_face_encoding locs rawEncs lmks validate)
        sim store name image_data).1.success = true) :
    ∃ encs, register_user decode
        (fun _ => get_face_encoding locs rawEncs lmks validate)
        sim store name image_data =
        (⟨true, "User registered successfully", "success", none⟩,
          store ++ [⟨name, encs⟩]) ∧
      encs.length = 3 * rawEncs.length := by
  obtain ⟨img, hd, encs, hg, heq⟩ :=
    register_user_success_appends _ _ _ _ _ _ h
  refine ⟨encs, heq, ?_⟩
  rw [get_face_encoding_some hg, augmentEncodings_length]

/-- Witness for C4's amended statement at a concrete single-face
enrollment. -/
theorem enrollment_persists_three_per_raw_witness :
    ((register_user (fun _ => some ())
        (fun _ => get_face_encoding [0] [[(1 : ℚ)]] [0] (fun _ => true))
        (fun _ _ => (0 : ℚ)) ([] : List (UserRecord (List ℚ))) "alice"
        "img").1.success = true) ∧
    (∃ encs, register_user (fun _ => some ())
        (fun _ => get_face_encoding [0] [[(1 : ℚ)]] [0] (fun _ => true))
        (fun _ _ => (0 : ℚ)) ([] : List (UserRecord (List ℚ))) "alice"
        "img" =
        (⟨true, "User registered successfully", "success", none⟩,
          [] ++ [⟨"alice", encs⟩]) ∧
      encs.length = 3 * ([[(1 : ℚ)]] : List (List ℚ)).length) := by
  have hn : nameIsBlank "alice" = false := by decide
  have hi : ("img" == "") = false := by decide
  have hs : (register_user (fun _ => some ())
      (fun _ => get_face_encoding [0] [[(1 : ℚ)]] [0] (fun _ => true))
      (fun _ _ => (0 : ℚ)) ([] : List (UserRecord (List ℚ))) "alice"
      "img").1.success = true := by
    norm_num [register_user, hn, hi, get_face_encoding, augmentEncodings,
      smulList, find_existing_face]
  exact ⟨hs, enrollment_persists_three_per_raw (fun _ => some ()) [0]
    [[(1 : ℚ)]] [0] (fun _ => true) (fun _ _ => (0 : ℚ)) [] "alice" "img" hs⟩

/-! ## Claim C9: duplicate identities at enrollment -/

/-- Counterexample for C9: with `alice` already registered, enrolling
`alice` with an EMPTY image payload is rejected as a
`validation_error` ("Image data is required"), not as the
duplicate-identity error — the image-presence check precedes the
duplicate lookup. -/
theorem duplicate_with_empty_image_is_validation_error :
    register_user (fun _ => (none : Option Unit))
        (fun _ => (none : Option (List ℕ))) (fun _ _ => (0 : ℚ))
        [⟨"alice", [10]⟩] "alice" "" =
      (⟨false, "Image data is required", "validation_error", none⟩,
        [⟨"alice", [10]⟩]) := by
  have hn : nameIsBlank "alice" = false := by decide
  simp [register_user, hn]

/-- Claim C9, amended: for every non-whitespace identity already present
in the store (the only kind enrollment can create) and every NON-EMPTY
image payload — decodable or not, face or no face — enrollment fails
with the duplicate-identity error (`user_exists`) and writes nothing;
an empty payload is instead caught earlier as a `validation_error`. -/
theorem duplicate_identity_always_rejected {ε Img : Type} {α : Type}
    [LinearOrderedField α] (decode : String → Option Img)
    (getEnc : Img → Option (List ε)) (sim : ε → ε → α)
    (store : List (UserRecord ε)) (name image_data : String)
    (hname : nameIsBlank name = false) (himg : image_data ≠ "")
    (hmem : ∃ u ∈ store, u.name = name) :
    register_user decode getEnc sim store name image_data =
      (⟨false, "User already exists", "user_exists", none⟩, store) := by
  have h2 : (image_data == "") = false := beq_eq_false_iff_ne.mpr himg
  have h3 : (store.find? (fun u => u.name == name)).isSome = true := by
    rw [List.find?_isSome]
    obtain ⟨u, hu, hn⟩ := hmem
    exact ⟨u, hu, by rw [hn]; exact beq_self_eq_true name⟩
  simp [register_user, hname, h2, h3]

/-- Witness for C9's amended statement: `alice` is registered, and a
second enrollment under `alice` with an arbitrary nonempty payload and
an always-failing decoder is still rejected as `user_exists`. -/
theorem duplicate_identity_always_rejected_witness :
    (nameIsBlank "alice" = false) ∧ ("img" ≠ "") ∧
    register_user (fun _ => (none : Option Unit))
        (fun _ => (none : Option (List ℕ))) (fun _ _ => (0 : ℚ))
        [⟨"alice", [10]⟩] "alice" "img" =
      (⟨false, "User already exists", "user_exists", none⟩,
        [⟨"alice", [10]⟩]) :=
  ⟨by decide, by decide,
    duplicate_identity_always_rejected _ _ _ _ _ _ (by decide) (by decide)
      ⟨⟨"alice", [10]⟩, by simp, rfl⟩⟩

/-! ## Claim C10: scaled variants do not change verification -/

/-- Claim C10: cosine similarity is unchanged by the `0.95`/`1.05`
positive scalings the encoder applies, so each scaled variant scores
exactly as its original against any stored encoding, and verification
run on the augmented query list returns exactly the same result — same
best score, same identity, same accept/reject decision — as on the raw
encodings. -/
theorem augmentation_preserves_verification :
    (∀ v w : List ℝ,
      cosineSim (smulList (95 / 100) v) w = cosineSim v w ∧
      cosineSim (smulList (105 / 100) v) w = cosineSim v w) ∧
    ∀ (store : List (UserRecord (List ℝ))) (raw : List (List ℝ)),
      verifyWithEncodings cosineSim store (augmentEncodings raw) =
        verifyWithEncodings cosineSim store raw := by
  constructor
  · intro v w
    exact ⟨cosineSim_smul (by norm_num) v w, cosineSim_smul (by norm_num) v w⟩
  · intro store raw
    exact verifyWithEncodings_augment store raw
